import Mathlib

/-!
Shallow embedding of the `tokiocli` line-editing engine (`src/lib.rs`).

Strings are modelled as lists of characters (`List Char`); the code's
single-byte-per-keystroke assumption makes the byte index and the character
index coincide.  Input bytes read from the terminal are modelled as a
`List Nat` that each reading operation consumes from the front; a read on an
exhausted stream models the propagated I/O error (`Option` none).  Indexing
panics of the Rust code are likewise modelled as `Option` none.  Display
output (`eprint!`) has no observable effect on the data model and is not
modelled.
-/

namespace Tokiocli

/-- The public `Action` enum of `src/lib.rs` (lines 12-17): it has exactly the
two variants `Command` and `AutoComplete`. -/
inductive Action where
  | Command : List (List Char) → Action
  | AutoComplete : List (List Char) → Action
deriving DecidableEq

/-- The `Cli` struct of `src/lib.rs` (lines 50-59).  The `saved_termios` and
`reader` fields are the terminal handle and the input stream; the terminal
snapshot is opaque and the input stream is passed explicitly to the reading
operations, so neither is a field here. -/
structure Cli where
  do_reset : Bool
  prompt : List Char
  cmd : List Char
  cursor : Nat
  history : List (List Char)
  history_idx : Option Nat
deriving DecidableEq

/-- The character loop of `Cli::cmd2args` (`src/lib.rs` lines 86-122):
`args`/`arg` are the accumulators, `is_string`/`is_escaped` the two flags;
after the loop the final `arg` is always pushed. -/
def cmd2argsLoop : List Char → List (List Char) → List Char → Bool → Bool →
    List (List Char)
  | [], args, arg, _, _ => args ++ [arg]
  | c :: rest, args, arg, is_string, is_escaped =>
    if is_escaped then
      cmd2argsLoop rest args (arg ++ [c]) is_string false
    else if c = '\\' then
      cmd2argsLoop rest args arg is_string true
    else if c = '"' then
      cmd2argsLoop rest args arg (!is_string) is_escaped
    else if c = ' ' then
      match is_string with
      | true => cmd2argsLoop rest args (arg ++ [c]) is_string is_escaped
      | false => cmd2argsLoop rest (args ++ [arg]) [] is_string is_escaped
    else
      cmd2argsLoop rest args (arg ++ [c]) is_string is_escaped

/-- Embeds `Cli::cmd2args` (`src/lib.rs` lines 86-122). -/
def Cli.cmd2args (cli : Cli) : List (List Char) :=
  cmd2argsLoop cli.cmd [] [] false false

/-- Embeds `Cli::reset` (`src/lib.rs` lines 129-135): clear the buffer, zero the
cursor, clear the history position (the prompt print is display only). -/
def Cli.reset (cli : Cli) : Cli :=
  { cli with cmd := [], cursor := 0, history_idx := none }

/-- The source's redundant match on the restored word's length when setting
the cursor in `history_restore` (`src/lib.rs` lines 146-149). -/
def lenMatch (n : Nat) : Nat :=
  match n with
  | 0 => 0
  | len => len

/-- Embeds `Cli::history_restore` (`src/lib.rs` lines 137-154).  With no history
position it returns at once; otherwise `self.history[idx]` is copied into the
buffer (an out-of-range index is the Rust panic, modelled as `none`) and the
cursor is set by the source's match on the new length. -/
def Cli.history_restore (cli : Cli) : Option Cli :=
  match cli.history_idx with
  | none => some cli
  | some idx =>
    match cli.history.get? idx with
    | none => none
    | some word =>
      some { cli with
        cmd := word,
        cursor := lenMatch word.length }

/-- Embeds `Cli::history_prev` (`src/lib.rs` lines 156-169): move the history index
one entry back (saturating at 0; from `none` jump to the last entry, staying
at `none` on an empty history), then restore. -/
def Cli.history_prev (cli : Cli) : Option Cli :=
  Cli.history_restore
    { cli with
      history_idx :=
        match cli.history_idx with
        | some idx =>
          match idx with
          | 0 => some 0
          | Nat.succ k => some k
        | none =>
          match cli.history.length with
          | 0 => none
          | Nat.succ k => some k }

/-- Embeds `Cli::history_next` (`src/lib.rs` lines 171-184): move the history index
one entry forward when `idx + 1` is still in range, otherwise (and from
`none`) set it to `none`; then restore. -/
def Cli.history_next (cli : Cli) : Option Cli :=
  Cli.history_restore
    { cli with
      history_idx :=
        match cli.history_idx with
        | some idx =>
          if idx + 1 < cli.history.length then some (idx + 1) else none
        | none => none }

/-- Embeds `Cli::cursor_reset` (`src/lib.rs` lines 186-190). -/
def Cli.cursor_reset (cli : Cli) : Cli :=
  { cli with cursor := 0 }

/-- Embeds `Cli::cursor_left` (`src/lib.rs` lines 192-198). -/
def Cli.cursor_left (cli : Cli) : Cli :=
  if cli.cursor > 0 then { cli with cursor := cli.cursor - 1 } else cli

/-- Embeds `Cli::cursor_right` (`src/lib.rs` lines 200-206). -/
def Cli.cursor_right (cli : Cli) : Cli :=
  if cli.cursor < cli.cmd.length then { cli with cursor := cli.cursor + 1 }
  else cli

/-- Embeds `Cli::addchar` (`src/lib.rs` lines 242-253): `self.cmd.insert(self.cursor, c)`
then `self.cursor += 1` (the branch on `cursor < len` only affects display). -/
def Cli.addchar (cli : Cli) (c : Char) : Cli :=
  { cli with
    cmd := cli.cmd.insertIdx cli.cursor c,
    cursor := cli.cursor + 1 }

/-- Embeds `Cli::backspace` (`src/lib.rs` lines 255-266): no-op at cursor 0, else
decrement the cursor and remove the character at the updated cursor. -/
def Cli.backspace (cli : Cli) : Cli :=
  if cli.cursor = 0 then cli
  else
    { cli with
      cursor := cli.cursor - 1,
      cmd := cli.cmd.eraseIdx (cli.cursor - 1) }

/-- Embeds `Cli::suppr` (`src/lib.rs` lines 268-280): read one byte; if it is not
the tilde, log and discard; else remove the character at the cursor only when
`cursor + 1 < cmd.len()`. -/
def Cli.suppr (cli : Cli) (input : List Nat) : Option (Cli × List Nat) :=
  match input with
  | [] => none
  | c :: rest =>
    if Char.ofNat c ≠ '~' then some (cli, rest)
    else if cli.cursor + 1 < cli.cmd.length then
      some ({ cli with cmd := cli.cmd.eraseIdx cli.cursor }, rest)
    else some (cli, rest)

/-- Embeds `Cli::escape` (`src/lib.rs` lines 208-240): read a byte; anything other
than `0x5B` is silently dropped; else read the selector byte and dispatch,
logging and discarding an unrecognized selector. -/
def Cli.escape (cli : Cli) (input : List Nat) : Option (Cli × List Nat) :=
  match input with
  | [] => none
  | c :: rest =>
    if c ≠ 0x5B then some (cli, rest)
    else
      match rest with
      | [] => none
      | c2 :: rest2 =>
        if c2 = 0x33 then cli.suppr rest2
        else if c2 = 0x41 then (cli.history_prev).map (fun st => (st, rest2))
        else if c2 = 0x42 then (cli.history_next).map (fun st => (st, rest2))
        else if c2 = 0x43 then some (cli.cursor_right, rest2)
        else if c2 = 0x44 then some (cli.cursor_left, rest2)
        else some (cli, rest2)

/-- Embeds `Cli::eol` (`src/lib.rs` lines 282-289): tokenize the buffer; when the
first token (`args[0]`, a panic on an empty list, modelled as `none`) is
non-empty, push the raw untokenized buffer onto the history; return the
tokens. -/
def Cli.eol (cli : Cli) : Option (Cli × List (List Char)) :=
  let args := cli.cmd2args
  match args.head? with
  | none => none
  | some a0 =>
    if !a0.isEmpty then
      some ({ cli with history := cli.history ++ [cli.cmd] }, args)
    else some (cli, args)

/-- The read loop of `Cli::getaction` (`src/lib.rs` lines 294-326), with an
explicit fuel so that one unit of fuel is spent per loop iteration; since
each iteration consumes at least one input byte, fuel `input.length` is
always enough. -/
def Cli.getactionGo : Nat → Cli → List Nat → Option (Action × Cli × List Nat)
  | 0, _, _ => none
  | Nat.succ fuel, cli, input =>
    match input with
    | [] => none
    | c :: rest =>
      if c = 0x01 ∨ c = 0x02 then Cli.getactionGo fuel cli.cursor_reset rest
      else if c = 0x1B then
        match cli.escape rest with
        | none => none
        | some (cli2, rest2) => Cli.getactionGo fuel cli2 rest2
      else if c = 0x7F then Cli.getactionGo fuel cli.backspace rest
      else if c = 0x0A then
        match cli.eol with
        | none => none
        | some (cli2, args) =>
          some (Action.Command args, { cli2 with do_reset := true }, rest)
      else if c = 0x09 then some (Action.AutoComplete cli.cmd2args, cli, rest)
      else Cli.getactionGo fuel (cli.addchar (Char.ofNat c)) rest

/-- Embeds `Cli::getaction` (`src/lib.rs` lines 294-326): run the pending reset when
the `do_reset` flag is set, then enter the read loop. -/
def Cli.getaction (cli : Cli) (input : List Nat) :
    Option (Action × Cli × List Nat) :=
  let cli := if cli.do_reset then { cli.reset with do_reset := false } else cli
  Cli.getactionGo input.length cli input

/-- The free function `common_chars` (`src/lib.rs` lines 400-420): count the
leading positions where the two strings agree (stopping at the first mismatch
or the end of either string) and return that prefix of the first string. -/
def common_chars_count : List Char → List Char → Nat
  | [], _ => 0
  | _ :: _, [] => 0
  | l :: ls, r :: rs => if l = r then common_chars_count ls rs + 1 else 0

/-- The slice `&lstr[0..common]` returned by `common_chars`. -/
def common_chars (lstr rstr : List Char) : List Char :=
  lstr.take (common_chars_count lstr rstr)

/-- The common-prefix fold of `Cli::autocomplete` (`src/lib.rs` lines
350-354): start from `words[0]` and fold `common_chars` over the whole list
left to right. -/
def common_word (words : List (List Char)) : List Char :=
  match words with
  | [] => []
  | w0 :: _ => words.foldl (fun common word => common_chars word common) w0

/-- Embeds `Cli::autocomplete` (`src/lib.rs` lines 344-379): no-op on an empty list;
else compute the common prefix, take the last token of the tokenized buffer
(the `unwrap` panic on an empty token list is modelled as `none`), slice the
common prefix past that token's length (an out-of-range slice start is the
Rust panic, modelled as `none`), and append the completion to the buffer and
its length to the cursor; the one-word and many-word branches differ only in
display output. -/
def Cli.autocomplete (cli : Cli) (words : List (List Char)) : Option Cli :=
  if words.isEmpty then some cli
  else
    let common := common_word words
    let args := cli.cmd2args
    match args.getLast? with
    | none => none
    | some lastarg =>
      if lastarg.length ≤ common.length then
        some { cli with
          cmd := cli.cmd ++ common.drop lastarg.length,
          cursor := cli.cursor + (common.drop lastarg.length).length }
      else none

/-- A fresh session state as built by `Cli::new` (`src/lib.rs` lines 67-84),
with the buffer replaced by an arbitrary line for stating properties. -/
def initCli (cmd : List Char) : Cli :=
  { do_reset := true,
    prompt := [' '],
    cmd := cmd,
    cursor := 0,
    history := [],
    history_idx := none }

/-- Append a character to the active (first) token of a head-first token
list. -/
def specConsHead (c : Char) : List (List Char) → List (List Char)
  | [] => [[c]]
  | t :: ts => (c :: t) :: ts

/-- Modelled from the spec §4.3 `tokenize`, written independently of the
source loop: scan character by character with the `in_string` and `escaped`
flags; an escaped character is appended literally; a backslash sets `escaped`
and is not appended; a double-quote toggles `in_string` and is not appended;
a space ends the active token only when not in a string; any other character
is appended; at end of input the final (possibly empty) active token is
always part of the result. -/
def tokenizeSpecGo : List Char → Bool → Bool → List (List Char)
  | [], _, _ => [[]]
  | c :: rest, in_string, escaped =>
    if escaped then specConsHead c (tokenizeSpecGo rest in_string false)
    else if c = '\\' then tokenizeSpecGo rest in_string true
    else if c = '"' then tokenizeSpecGo rest (!in_string) escaped
    else if c = ' ' ∧ in_string = false then
      [] :: tokenizeSpecGo rest in_string escaped
    else specConsHead c (tokenizeSpecGo rest in_string escaped)

/-- Modelled from the spec §4.3: the full tokenizer, starting with both flags
clear. -/
def tokenizeSpec (s : List Char) : List (List Char) :=
  tokenizeSpecGo s false false

/-- Prepend an already-accumulated partial token to the first token of a
head-first token list. -/
def prependTok (arg : List Char) : List (List Char) → List (List Char)
  | [] => [arg]
  | t :: ts => (arg ++ t) :: ts

/-- The line-buffer invariant of the spec: `0 ≤ cursor ≤ len(text)` (the
lower bound is automatic for `Nat`). -/
def Inv (cli : Cli) : Prop := cli.cursor ≤ cli.cmd.length

instance (cli : Cli) : Decidable (Inv cli) := by
  unfold Inv; infer_instance

/-- The invariant lifted to the `Option`-valued operations: a `none` result
models a panic, a `some` result must satisfy the invariant. -/
def InvO : Option Cli → Prop
  | none => True
  | some cli => Inv cli

instance (o : Option Cli) : Decidable (InvO o) := by
  cases o <;> simp [InvO] <;> infer_instance

/-- The invariant lifted to the operations that also return the remaining
input stream. -/
def InvOP : Option (Cli × List Nat) → Prop
  | none => True
  | some (cli, _) => Inv cli

instance (o : Option (Cli × List Nat)) : Decidable (InvOP o) := by
  cases o with
  | none => simp [InvOP]; infer_instance
  | some p => cases p; simp [InvOP]; infer_instance

/-- Iterate an `Option`-valued session operation a given number of times,
propagating a modelled panic. -/
def iterOp (f : Cli → Option Cli) : Nat → Cli → Option Cli
  | 0, cli => some cli
  | Nat.succ k, cli => (f cli).bind (iterOp f k)

/-- The state right after `history_restore` has copied the word `w` found at
history index `i` into the buffer. -/
def restoredAt (cli : Cli) (i : Nat) (w : List Char) : Cli :=
  { cli with history_idx := some i, cmd := w, cursor := w.length }

/-! ### Tokenizer lemmas -/

theorem lenMatch_eq (n : Nat) : lenMatch n = n := by
  cases n <;> rfl

theorem tokenizeSpecGo_ne_nil (cs : List Char) (s e : Bool) :
    tokenizeSpecGo cs s e ≠ [] := by
  induction cs generalizing s e with
  | nil => simp [tokenizeSpecGo]
  | cons c rest ih =>
    simp only [tokenizeSpecGo]
    split
    · cases h : tokenizeSpecGo rest s false <;> simp [specConsHead]
    · split
      · exact ih s true
      · split
        · exact ih (!s) e
        · split
          · simp
          · cases h : tokenizeSpecGo rest s e <;> simp [specConsHead]

theorem prependTok_specConsHead (arg : List Char) (c : Char)
    (l : List (List Char)) :
    prependTok arg (specConsHead c l) = prependTok (arg ++ [c]) l := by
  cases l <;> simp [prependTok, specConsHead]

theorem cmd2argsLoop_eq_spec (cs : List Char) (args : List (List Char))
    (arg : List Char) (s e : Bool) :
    cmd2argsLoop cs args arg s e = args ++ prependTok arg (tokenizeSpecGo cs s e) := by
  induction cs generalizing args arg s e with
  | nil => simp [cmd2argsLoop, tokenizeSpecGo, prependTok]
  | cons c rest ih =>
    cases e with
    | true => simp [cmd2argsLoop, tokenizeSpecGo, ih, prependTok_specConsHead]
    | false =>
      by_cases hbs : c = '\\'
      · subst hbs
        simp [cmd2argsLoop, tokenizeSpecGo, ih]
      · by_cases hq : c = '"'
        · subst hq
          simp [cmd2argsLoop, tokenizeSpecGo, hbs, ih]
        · by_cases hsp : c = ' '
          · subst hsp
            cases s with
            | true =>
              simp [cmd2argsLoop, tokenizeSpecGo, hbs, hq, ih,
                prependTok_specConsHead]
            | false =>
              cases hgo : tokenizeSpecGo rest false false with
              | nil => exact absurd hgo (tokenizeSpecGo_ne_nil rest false false)
              | cons t ts =>
                simp [cmd2argsLoop, tokenizeSpecGo, hbs, hq, ih, hgo,
                  prependTok]
          · simp [cmd2argsLoop, tokenizeSpecGo, hbs, hq, hsp, ih,
              prependTok_specConsHead]

theorem cmd2args_eq_tokenizeSpec (cli : Cli) :
    cli.cmd2args = tokenizeSpec cli.cmd := by
  rw [Cli.cmd2args, tokenizeSpec, cmd2argsLoop_eq_spec]
  cases h : tokenizeSpecGo cli.cmd false false with
  | nil => exact absurd h (tokenizeSpecGo_ne_nil cli.cmd false false)
  | cons t ts => simp [prependTok]

theorem prependTok_ne_nil (arg : List Char) (l : List (List Char)) :
    prependTok arg l ≠ [] := by
  cases l <;> simp [prependTok]

theorem cmd2args_ne_nil (cli : Cli) : cli.cmd2args ≠ [] := by
  rw [Cli.cmd2args, cmd2argsLoop_eq_spec]
  simp [prependTok_ne_nil]

/-! ### Invariant lemmas -/

theorem Inv_set_idx (cli : Cli) (o : Option Nat) (h : Inv cli) :
    Inv { cli with history_idx := o } := h

theorem InvO_restore (cli : Cli) (h : Inv cli) : InvO cli.history_restore := by
  unfold Cli.history_restore
  split
  · exact h
  · split
    · trivial
    · rename_i word hg
      simp [InvO, Inv, lenMatch_eq]

/-! ### Claim theorems -/

/-- C1: the tokenizer `cmd2args` implements exactly the quoting/escaping
algorithm of the spec — for every input it agrees with the tokenizer written
from the spec's words — and in particular the spec's four examples hold:
tokenizing the backslash-escaped space gives one token, the quoted pair gives
two, the empty line gives one empty token, and two consecutive spaces give an
empty token between the two words. -/
theorem cmd2args_implements_spec_tokenize :
    (∀ cli : Cli, cli.cmd2args = tokenizeSpec cli.cmd)
    ∧ (initCli "a\\ b".data).cmd2args = ["a b".data]
    ∧ (initCli "\"a b\" c".data).cmd2args = ["a b".data, "c".data]
    ∧ (initCli "".data).cmd2args = ["".data]
    ∧ (initCli "a  b".data).cmd2args = ["a".data, "".data, "b".data] :=
  ⟨cmd2args_eq_tokenizeSpec, by decide, by decide, by decide, by decide⟩

/-- C10: for every state the tokenizer returns at least one token, so the
reads of the first token (`args[0]` in `eol`) and of the last token
(`args.last().unwrap()` in `autocomplete`) are always defined, and `eol`
never panics. -/
theorem cmd2args_always_nonempty :
    ∀ cli : Cli, cli.cmd2args ≠ []
      ∧ cli.cmd2args.head?.isSome
      ∧ cli.cmd2args.getLast?.isSome
      ∧ cli.eol.isSome := by
  intro cli
  have h := cmd2args_ne_nil cli
  cases hc : cli.cmd2args with
  | nil => exact absurd hc h
  | cons a as =>
    refine ⟨by simp, ?_, ?_, ?_⟩
    · simp [hc]
    · simp [hc]
    · simp only [Cli.eol, hc, List.head?]
      split <;> simp

/-- C3: the line-buffer invariant `0 ≤ cursor ≤ len(text)` is preserved by
every buffer- or cursor-mutating operation — insert (`addchar`), backspace,
delete-forward (`suppr`), cursor left/right/home, `reset`, history restore
(and the history navigation built on it), and `autocomplete` — assuming it
held before the operation (`none` results model panics, which mutate
nothing). -/
theorem lineBuffer_invariant_preserved (cli : Cli) (c : Char)
    (input : List Nat) (words : List (List Char)) (h : Inv cli) :
    Inv (cli.addchar c) ∧ Inv cli.backspace ∧ InvOP (cli.suppr input)
    ∧ Inv cli.cursor_left ∧ Inv cli.cursor_right ∧ Inv cli.cursor_reset
    ∧ Inv cli.reset ∧ InvO cli.history_restore ∧ InvO cli.history_prev
    ∧ InvO cli.history_next ∧ InvO (cli.autocomplete words) := by
  refine ⟨?_, ?_, ?_, ?_, ?_, ?_, ?_, ?_, ?_, ?_, ?_⟩
  · show cli.cursor + 1 ≤ (cli.cmd.insertIdx cli.cursor c).length
    rw [List.length_insertIdx _ _ h]
    have h2 : cli.cursor ≤ cli.cmd.length := h
    omega
  · unfold Cli.backspace
    split
    · exact h
    · rename_i hc0
      show cli.cursor - 1 ≤ (cli.cmd.eraseIdx (cli.cursor - 1)).length
      have hlt : cli.cursor - 1 < cli.cmd.length := by
        have := h
        unfold Inv at this
        omega
      have := List.length_eraseIdx_add_one hlt
      omega
  · unfold Cli.suppr
    cases input with
    | nil => trivial
    | cons b rest =>
      dsimp only
      split
      · exact h
      · split
        · rename_i hne hlt
          show InvOP (some _)
          show cli.cursor ≤ (cli.cmd.eraseIdx cli.cursor).length
          have hcl : cli.cursor < cli.cmd.length := by omega
          have := List.length_eraseIdx_add_one hcl
          omega
        · exact h
  · unfold Cli.cursor_left
    split
    · unfold Inv at h ⊢
      simp only
      omega
    · exact h
  · unfold Cli.cursor_right
    split
    · unfold Inv at h ⊢
      simp only
      rename_i hlt
      omega
    · exact h
  · show 0 ≤ cli.cmd.length
    omega
  · show (0 : Nat) ≤ ([] : List Char).length
    omega
  · exact InvO_restore cli h
  · exact InvO_restore _ (Inv_set_idx cli _ h)
  · exact InvO_restore _ (Inv_set_idx cli _ h)
  · unfold Cli.autocomplete
    split
    · exact h
    · dsimp only
      split
      · trivial
      · split
        · simp only [InvO, Inv, List.length_append]
          unfold Inv at h
          omega
        · trivial

/-- Witness for C3 at a concrete state: inserting a character into a
one-character buffer preserves the invariant. -/
theorem lineBuffer_invariant_preserved_witness :
    Inv ((initCli ['a']).addchar 'b') :=
  (lineBuffer_invariant_preserved (initCli ['a']) 'b' [] [] (by decide)).1

/-- C5 counterexample: with the one-character buffer `"a"` and the cursor at
0, a character exists at the cursor (`cursor < len`), yet completing the
delete-forward sequence with the tilde byte leaves the buffer unchanged —
the code only deletes when `cursor + 1 < len`. -/
theorem suppr_keeps_last_char_counterexample :
    (initCli ['a']).suppr [0x7E] = some (initCli ['a'], [])
    ∧ (initCli ['a']).cursor < (initCli ['a']).cmd.length := by
  refine ⟨?_, by decide⟩
  decide

/-- C5 amended: when the delete-forward sequence is completed by the tilde
byte, the character at the cursor is deleted exactly when
`cursor + 1 < len(text)` (so never when the cursor rests on the last
character), and the cursor is unchanged in every case. -/
theorem suppr_deletes_at_cursor_when_not_last (cli : Cli) (rest : List Nat) :
    cli.suppr (0x7E :: rest)
      = some ((if cli.cursor + 1 < cli.cmd.length
          then { cli with cmd := cli.cmd.eraseIdx cli.cursor }
          else cli), rest) := by
  have htilde : ¬(Char.ofNat 0x7E ≠ '~') := by decide
  simp only [Cli.suppr, htilde, if_false]
  split <;> simp

/-- C6: on line submission `eol` appends the raw untokenized buffer to the
history exactly when the first token of the tokenized buffer is non-empty;
an empty line appends nothing, and the line with two inner spaces appends
the literal raw string, at the end of the history (preserving order and
duplicates). -/
theorem eol_appends_raw_iff_first_token_nonempty :
    (∀ cli : Cli, cli.eol = some
        ((if (cli.cmd2args.headD []).isEmpty then cli
          else { cli with history := cli.history ++ [cli.cmd] }),
         cli.cmd2args))
    ∧ (initCli "".data).eol = some (initCli "".data, [[]])
    ∧ ({ initCli "cmd  arg".data with history := ["old".data] }).eol
        = some ({ initCli "cmd  arg".data with
                    history := ["old".data, "cmd  arg".data] },
                ["cmd".data, "".data, "arg".data]) := by
  refine ⟨?_, by decide, by decide⟩
  intro cli
  cases hc : cli.cmd2args with
  | nil => exact absurd hc (cmd2args_ne_nil cli)
  | cons a as =>
    simp only [Cli.eol, hc, List.head?, List.headD]
    rcases Bool.eq_false_or_eq_true a.isEmpty with hb | hb <;> simp [hb]

theorem common_chars_count_self (w : List Char) :
    common_chars_count w w = w.length := by
  induction w with
  | nil => rfl
  | cons c rest ih => simp [common_chars_count, ih]

theorem common_chars_self (w : List Char) : common_chars w w = w := by
  simp [common_chars, common_chars_count_self]

theorem common_word_single (w : List Char) : common_word [w] = w := by
  simp [common_word, common_chars_self]

/-- C7 counterexample: the common-prefix fold of the code applied to the
spec's own example list yields the three-character prefix, not the
two-character one the claim states. -/
theorem common_word_hello_help_counterexample :
    common_word ["hello".data, "help".data] = "hel".data
    ∧ "hel".data ≠ ("he".data : List Char) := by
  refine ⟨?_, by decide⟩
  decide

/-- C7 amended: the common prefix of the candidate list is computed by a
left-to-right fold of the pairwise common-leading-characters comparison, so
the common prefix of the hello/help pair is the three-character prefix (not
the two-character one) and that of a singleton is the candidate itself; with
exactly one candidate whose length is at least the last token's, the suffix
of the candidate beyond the last token is appended to the buffer and the
cursor advances by its length (buffer two characters with the single
five-character candidate yields the full word with the cursor at 5); with an
empty candidate list the call is a no-op. -/
theorem autocomplete_common_prefix_and_single_candidate :
    common_word ["hello".data, "help".data] = "hel".data
    ∧ common_word ["a".data] = "a".data
    ∧ ({ initCli "he".data with cursor := 2 }).autocomplete ["hello".data]
        = some { initCli "he".data with cmd := "hello".data, cursor := 5 }
    ∧ (∀ cli : Cli, cli.autocomplete [] = some cli)
    ∧ (∀ (cli : Cli) (w : List Char),
        (cli.cmd2args.getLastD []).length ≤ w.length →
        cli.autocomplete [w] = some { cli with
          cmd := cli.cmd ++ w.drop (cli.cmd2args.getLastD []).length,
          cursor :=
            cli.cursor + (w.drop (cli.cmd2args.getLastD []).length).length }) := by
  refine ⟨by decide, by decide, by decide, ?_, ?_⟩
  · intro cli
    simp [Cli.autocomplete]
  · intro cli w hw
    have hne := cmd2args_ne_nil cli
    cases hg : cli.cmd2args.getLast? with
    | none =>
      exact absurd (Option.isSome_iff_exists.mp (List.getLast?_isSome.mpr hne))
        (by simp [hg])
    | some lastarg =>
      have hD : cli.cmd2args.getLastD [] = lastarg := by
        rw [List.getLastD_eq_getLast?, hg]
        rfl
      simp only [Cli.autocomplete, List.isEmpty_cons, common_word_single, hg,
        hD, Bool.false_eq_true, if_false]
      rw [hD] at hw
      simp [hw]

/-- Witness for the C7 single-candidate equation at a concrete state: buffer
two characters, one four-character candidate. -/
theorem autocomplete_single_candidate_witness :
    (initCli "he".data).autocomplete ["help".data]
      = some { initCli "he".data with cmd := "help".data, cursor := 2 } := by
  have h := autocomplete_common_prefix_and_single_candidate.2.2.2.2
    (initCli "he".data) "help".data (by decide)
  rw [h]
  decide

theorem escape_non_csi (cli : Cli) (c : Nat) (rest : List Nat)
    (h : c ≠ 0x5B) : cli.escape (c :: rest) = some (cli, rest) := by
  simp [Cli.escape, h]

theorem escape_unrecognized_selector (cli : Cli) (c : Nat) (rest : List Nat)
    (h33 : c ≠ 0x33) (h41 : c ≠ 0x41) (h42 : c ≠ 0x42) (h43 : c ≠ 0x43)
    (h44 : c ≠ 0x44) : cli.escape (0x5B :: c :: rest) = some (cli, rest) := by
  simp [Cli.escape, h33, h41, h42, h43, h44]

theorem suppr_not_tilde (cli : Cli) (c : Nat) (rest : List Nat)
    (h : Char.ofNat c ≠ '~') : cli.suppr (c :: rest) = some (cli, rest) := by
  simp [Cli.suppr, h]

theorem eol_exists (cli : Cli) :
    ∃ st args, cli.eol = some (st, args) := by
  cases hc : cli.cmd2args with
  | nil => exact absurd hc (cmd2args_ne_nil cli)
  | cons a as =>
    simp only [Cli.eol, hc, List.head?]
    rcases Bool.eq_false_or_eq_true a.isEmpty with hb | hb <;> simp [hb]

/-- C8: malformed escape sequences never produce an `Action` and never abort
the read loop: a byte other than the CSI introducer after ESC is silently
discarded, an unexpected trailing byte after the delete-forward prefix or an
unrecognized CSI selector is discarded, and in each such case the loop simply
continues on the remaining input; the loop returns only on the newline byte
(with a `Command`) or the Tab byte (with an `AutoComplete`). -/
theorem malformed_escape_sequences_nonfatal :
    (∀ (cli : Cli) (c : Nat) (rest : List Nat), c ≠ 0x5B →
        cli.escape (c :: rest) = some (cli, rest))
    ∧ (∀ (cli : Cli) (c : Nat) (rest : List Nat),
        c ≠ 0x33 → c ≠ 0x41 → c ≠ 0x42 → c ≠ 0x43 → c ≠ 0x44 →
        cli.escape (0x5B :: c :: rest) = some (cli, rest))
    ∧ (∀ (cli : Cli) (c : Nat) (rest : List Nat), Char.ofNat c ≠ '~' →
        cli.suppr (c :: rest) = some (cli, rest))
    ∧ (∀ (fuel : Nat) (cli : Cli) (c : Nat) (rest : List Nat), c ≠ 0x5B →
        Cli.getactionGo (fuel + 1) cli (0x1B :: c :: rest)
          = Cli.getactionGo fuel cli rest)
    ∧ (∀ (fuel : Nat) (cli : Cli) (c : Nat) (rest : List Nat),
        c ≠ 0x33 → c ≠ 0x41 → c ≠ 0x42 → c ≠ 0x43 → c ≠ 0x44 →
        Cli.getactionGo (fuel + 1) cli (0x1B :: 0x5B :: c :: rest)
          = Cli.getactionGo fuel cli rest)
    ∧ (∀ (fuel : Nat) (cli : Cli) (c : Nat) (rest : List Nat),
        Char.ofNat c ≠ '~' →
        Cli.getactionGo (fuel + 1) cli (0x1B :: 0x5B :: 0x33 :: c :: rest)
          = Cli.getactionGo fuel cli rest)
    ∧ (∀ (fuel : Nat) (cli : Cli) (rest : List Nat),
        Cli.getactionGo (fuel + 1) cli (0x09 :: rest)
          = some (Action.AutoComplete cli.cmd2args, cli, rest))
    ∧ (∀ (fuel : Nat) (cli : Cli) (rest : List Nat), ∃ st args,
        Cli.getactionGo (fuel + 1) cli (0x0A :: rest)
          = some (Action.Command args, st, rest))
    ∧ (∀ (fuel : Nat) (cli : Cli) (input : List Nat) (act : Action)
        (st : Cli) (rest : List Nat),
        Cli.getactionGo fuel cli input = some (act, st, rest) →
        (∃ args, act = Action.Command args)
        ∨ (∃ args, act = Action.AutoComplete args)) := by
  refine ⟨escape_non_csi, escape_unrecognized_selector, suppr_not_tilde,
    ?_, ?_, ?_, ?_, ?_, ?_⟩
  · intro fuel cli c rest h
    simp [Cli.getactionGo, escape_non_csi cli c rest h]
  · intro fuel cli c rest h33 h41 h42 h43 h44
    simp [Cli.getactionGo,
      escape_unrecognized_selector cli c rest h33 h41 h42 h43 h44]
  · intro fuel cli c rest h
    simp [Cli.getactionGo, Cli.escape, suppr_not_tilde cli c rest h]
  · intro fuel cli rest
    simp [Cli.getactionGo]
  · intro fuel cli rest
    obtain ⟨st, args, he⟩ := eol_exists cli
    exact ⟨{ st with do_reset := true }, args, by simp [Cli.getactionGo, he]⟩
  · intro fuel cli input act st rest h
    cases act with
    | Command args => exact Or.inl ⟨args, rfl⟩
    | AutoComplete args => exact Or.inr ⟨args, rfl⟩

/-- Witness for C8 at concrete inputs: the ESC-then-letter sequence is
silently discarded with the state unchanged. -/
theorem malformed_escape_sequences_nonfatal_witness :
    (initCli []).escape [65, 66] = some (initCli [], [66]) :=
  malformed_escape_sequences_nonfatal.1 (initCli []) 65 [66] (by decide)

/-! ### History navigation lemmas -/

theorem get?_getD_of_lt (l : List (List Char)) (i : Nat) (h : i < l.length) :
    l.get? i = some (l.getD i []) := by
  cases hg : l.get? i with
  | none =>
    have := List.get?_eq_none.mp hg
    omega
  | some w =>
    have : l.getD i [] = w := by
      rw [List.getD_eq_getElem?_getD, ← List.get?_eq_getElem?, hg]
      rfl
    rw [this]

theorem history_restore_at (cli : Cli) (i : Nat) (w : List Char)
    (hidx : cli.history_idx = some i) (hg : cli.history.get? i = some w) :
    cli.history_restore = some { cli with cmd := w, cursor := w.length } := by
  simp only [Cli.history_restore, hidx, hg, lenMatch_eq]

theorem history_prev_some_succ (s : Cli) (i : Nat) (w' : List Char)
    (hidx : s.history_idx = some (i + 1)) (hg : s.history.get? i = some w') :
    s.history_prev
      = some { s with history_idx := some i, cmd := w', cursor := w'.length } := by
  unfold Cli.history_prev
  simp only [hidx]
  exact history_restore_at _ i w' rfl hg

theorem history_prev_restoredAt (cli : Cli) (i : Nat) (w w' : List Char)
    (hg : cli.history.get? i = some w') :
    (restoredAt cli (i + 1) w).history_prev = some (restoredAt cli i w') :=
  history_prev_some_succ _ i w' rfl hg

theorem history_prev_from_none (cli : Cli) (m : Nat) (w : List Char)
    (hidx : cli.history_idx = none) (hlen : cli.history.length = m + 1)
    (hg : cli.history.get? m = some w) :
    cli.history_prev = some (restoredAt cli m w) := by
  unfold Cli.history_prev
  simp only [hidx, hlen]
  exact history_restore_at _ m w rfl hg

theorem iterOp_prev (cli : Cli) (j : Nat) :
    ∀ i : Nat, j ≤ i → i < cli.history.length →
    iterOp Cli.history_prev j (restoredAt cli i (cli.history.getD i []))
      = some (restoredAt cli (i - j) (cli.history.getD (i - j) [])) := by
  induction j with
  | zero =>
    intro i _ _
    simp [iterOp]
  | succ j ih =>
    intro i hj hi
    cases i with
    | zero => omega
    | succ i' =>
      have hg : cli.history.get? i' = some (cli.history.getD i' []) :=
        get?_getD_of_lt _ _ (by omega)
      simp only [iterOp]
      rw [history_prev_restoredAt cli i' _ _ hg]
      simp only [Option.some_bind]
      rw [ih i' (by omega) (by omega)]
      have harith : i' + 1 - (j + 1) = i' - j := by omega
      rw [harith]

theorem history_next_restoredAt (cli : Cli) (i : Nat) (w w' : List Char)
    (hi : i + 1 < cli.history.length)
    (hg : cli.history.get? (i + 1) = some w') :
    (restoredAt cli i w).history_next = some (restoredAt cli (i + 1) w') := by
  unfold Cli.history_next
  simp only [restoredAt, hi, if_pos]
  exact history_restore_at _ (i + 1) w' rfl hg

theorem history_next_last (cli : Cli) (i : Nat) (w : List Char)
    (hi : ¬i + 1 < cli.history.length) :
    (restoredAt cli i w).history_next
      = some { restoredAt cli i w with history_idx := none } := by
  unfold Cli.history_next
  simp [restoredAt, hi, Cli.history_restore]

theorem iterOp_next (cli : Cli) (j : Nat) :
    ∀ i : Nat, i + j < cli.history.length →
    iterOp Cli.history_next j (restoredAt cli i (cli.history.getD i []))
      = some (restoredAt cli (i + j) (cli.history.getD (i + j) [])) := by
  induction j with
  | zero =>
    intro i _
    simp [iterOp]
  | succ j ih =>
    intro i hij
    have hg : cli.history.get? (i + 1) = some (cli.history.getD (i + 1) []) :=
      get?_getD_of_lt _ _ (by omega)
    simp only [iterOp]
    rw [history_next_restoredAt cli i _ _ (by omega) hg]
    simp only [Option.some_bind]
    rw [ih (i + 1) (by omega)]
    have harith : i + 1 + j = i + (j + 1) := by omega
    rw [harith]

theorem iterOp_succ_right (f : Cli → Option Cli) (k : Nat) :
    ∀ cli : Cli, iterOp f (k + 1) cli = (iterOp f k cli).bind f := by
  induction k with
  | zero =>
    intro cli
    show (f cli).bind (iterOp f 0) = (some cli).bind f
    cases hf : f cli with
    | none => simp [hf]
    | some s => simp [iterOp, hf]
  | succ k ih =>
    intro cli
    show (f cli).bind (iterOp f (k + 1)) = ((f cli).bind (iterOp f k)).bind f
    cases f cli with
    | none => simp
    | some s => simp [ih s]

/-- C4 counterexample: with history holding the single entry `"x"` and the
pre-navigation buffer `"y"`, one `previous()` followed by one `next()` does
return `position` to `None` but leaves the buffer holding `"x"`, not the
pre-navigation content `"y"` — the final `next()` that falls past the newest
entry does not restore the buffer. -/
theorem history_prev_next_counterexample :
    (iterOp Cli.history_prev 1 { initCli "y".data with history := [['x']] }).bind
        (iterOp Cli.history_next 1)
      = some { initCli "y".data with
          history := [['x']], cmd := ['x'], cursor := 1, history_idx := none }
    ∧ (['x'] : List Char) ≠ "y".data := by
  refine ⟨?_, by decide⟩
  decide

/-- C4 amended: for every history with `n` entries and every `k` with
`1 ≤ k ≤ n`, starting from `position = None`, `k` calls to `previous()`
followed by `k` calls to `next()` return `position` to `None`, but the
buffer ends holding the newest (last) history entry, with the cursor at its
end — not the pre-navigation buffer content. -/
theorem history_prev_next_roundtrip (cli : Cli) (k : Nat)
    (hidx : cli.history_idx = none) (hk1 : 1 ≤ k)
    (hk2 : k ≤ cli.history.length) :
    (iterOp Cli.history_prev k cli).bind (iterOp Cli.history_next k)
      = some { cli with
          history_idx := none,
          cmd := cli.history.getD (cli.history.length - 1) [],
          cursor := (cli.history.getD (cli.history.length - 1) []).length } := by
  obtain ⟨m, hm⟩ : ∃ m, cli.history.length = m + 1 :=
    ⟨cli.history.length - 1, by omega⟩
  obtain ⟨k', hk⟩ : ∃ k', k = k' + 1 := ⟨k - 1, by omega⟩
  subst hk
  have hgm : cli.history.get? m = some (cli.history.getD m []) :=
    get?_getD_of_lt _ _ (by omega)
  have h1 : iterOp Cli.history_prev (k' + 1) cli
      = some (restoredAt cli (m - k') (cli.history.getD (m - k') [])) := by
    simp only [iterOp]
    rw [history_prev_from_none cli m _ hidx hm hgm]
    simp only [Option.some_bind]
    exact iterOp_prev cli k' m (by omega) (by omega)
  rw [h1]
  simp only [Option.some_bind]
  rw [iterOp_succ_right]
  rw [iterOp_next cli k' (m - k') (by omega)]
  have hmk : m - k' + k' = m := by omega
  rw [hmk]
  simp only [Option.some_bind]
  rw [history_next_last cli m _ (by omega)]
  have hm1 : cli.history.length - 1 = m := by omega
  rw [hm1]
  rfl

/-- Witness for C4 amended at the concrete one-entry history: after one
`previous()` and one `next()`, the position is `None` and the buffer holds
the single history entry. -/
theorem history_prev_next_roundtrip_witness :
    (iterOp Cli.history_prev 1 { initCli "y".data with history := [['x']] }).bind
        (iterOp Cli.history_next 1)
      = some { initCli "y".data with
          history := [['x']], history_idx := none, cmd := ['x'], cursor := 1 } := by
  have h := history_prev_next_roundtrip
    { initCli "y".data with history := [['x']] } 1 (by decide) (by decide)
    (by decide)
  rw [h]
  decide

/-- C9: the public `Action` type of the library has exactly the two variants
`Command` and `AutoComplete`; the `NoAction` variant that the spec and the
shipped example refer to does not exist in the library's enum. -/
theorem action_has_exactly_two_variants :
    ∀ a : Action,
      (∃ args, a = Action.Command args)
      ∨ (∃ args, a = Action.AutoComplete args) := by
  intro a
  cases a with
  | Command args => exact Or.inl ⟨args, rfl⟩
  | AutoComplete args => exact Or.inr ⟨args, rfl⟩

end Tokiocli
